import Mathlib

/-!
# Verification of the TamilDictionary lookup server (src/server.js)

A shallow embedding of the sharded dictionary server: bucket routing
(`bucketOf`), the LRU entry cache (`cacheGet`/`cacheSet`), the memoized
shard store (`loadShard`), the exact-lookup handlers for sharded and
streaming mode, and the prefix-search handlers.

Strings are modelled by Lean `String` (a sequence of Unicode scalar
values, matching what `Array.from` yields on a JS string).  The entry
payload is an opaque type parameter `V`.  The file system and the JSON
parser are external to the repository, so they enter the model as
explicit parameters (`Env.fs`, `Env.parse`); the streaming JSON pipeline
is modelled by the ordered list of top-level members it emits.
-/

set_option autoImplicit false

universe u

/-- JavaScript numbers as they matter for the `limit` parameter:
either a real (integer) number or `NaN`.  `Number(...)` on the request
strings seen here produces either an integer or `NaN`. -/
inductive JsNum where
  | nan
  | num (n : Int)
deriving DecidableEq

/-- `Math.min` on two JS numbers: `NaN` propagates. -/
def jsMin (a b : JsNum) : JsNum :=
  match a, b with
  | JsNum.nan, _ => JsNum.nan
  | _, JsNum.nan => JsNum.nan
  | JsNum.num x, JsNum.num y => JsNum.num (min x y)

/-- The JS comparison `n >= limit` where `n` is a list length and
`limit` is a JS number: every comparison with `NaN` is `false`. -/
def jsGe (n : Nat) : JsNum → Bool
  | JsNum.nan => false
  | JsNum.num m => decide (m ≤ (n : Int))

/-- One decimal digit of `Number(...)` input. -/
def digitVal (c : Char) : Option Nat :=
  if decide ('0' ≤ c) && decide (c ≤ '9') then some (c.toNat - 48) else none

/-- Accumulating decimal parse used by `jsNumber`. -/
def parseDecCore : List Char → Nat → Option Nat
  | [], acc => some acc
  | c :: rest, acc =>
    match digitVal c with
    | some d => parseDecCore rest (acc * 10 + d)
    | none => none

/-- Models the JS `Number(...)` coercion on the strings this server
meets: the empty string coerces to `0`, decimal integer strings
(optionally negated) coerce to that integer, and every other string
coerces to `NaN`.  (Real `Number` also accepts fractional and exponent
forms; those are outside what the claims exercise.) -/
def jsNumber (s : String) : JsNum :=
  match s.toList with
  | [] => JsNum.num 0
  | '-' :: [] => JsNum.nan
  | '-' :: c :: rest =>
    (match parseDecCore (c :: rest) 0 with
     | some n => JsNum.num (-(n : Int))
     | none => JsNum.nan)
  | c :: rest =>
    (match parseDecCore (c :: rest) 0 with
     | some n => JsNum.num (n : Int)
     | none => JsNum.nan)

/-- The characters removed by JS `String.prototype.trim`:
ECMAScript WhiteSpace and LineTerminator code points. -/
def isJsWhitespace (c : Char) : Bool :=
  [9, 10, 11, 12, 13, 32, 160, 0x1680,
   0x2000, 0x2001, 0x2002, 0x2003, 0x2004, 0x2005, 0x2006, 0x2007,
   0x2008, 0x2009, 0x200a, 0x2028, 0x2029, 0x202f, 0x205f, 0x3000,
   0xfeff].contains c.toNat

/-- JS `key.trim()`: strip leading and trailing whitespace. -/
def jsTrim (s : String) : String :=
  String.mk (((s.toList.dropWhile isJsWhitespace).reverse.dropWhile isJsWhitespace).reverse)

/-- JS `k.startsWith(q)`: `q` is a prefix of `k` (prefix on UTF-16
units coincides with prefix on the scalar-value sequences used here). -/
def startsWithJs (k q : String) : Bool :=
  q.toList.isPrefixOf k.toList

/-- The regex test `/[A-Za-z]/.test(first)` on a one-codepoint string. -/
def isAsciiLetter (c : Char) : Bool :=
  (decide ('A' ≤ c) && decide (c ≤ 'Z')) || (decide ('a' ≤ c) && decide (c ≤ 'z'))

/-- `first.toLowerCase()` restricted to the branch where `first` is an
ASCII letter (the only branch the code applies it in). -/
def lowerAscii (c : Char) : Char :=
  if decide ('A' ≤ c) && decide (c ≤ 'Z') then Char.ofNat (c.toNat + 32) else c

/-- `bucketOf` from src/server.js lines 65-72: trim, empty goes to the
misc bucket, an ASCII first letter is lowercased, any other first
codepoint is the bucket itself.  (The Lean argument type already rules
out the JS non-string guard; the trailing `first || '_misc'` of the
source is unreachable because the trimmed string is nonempty there, and
is covered by the nonempty match arm.) -/
def bucketOf (key : String) : String :=
  let trimmed := jsTrim key
  match trimmed.toList with
  | [] => "_misc"
  | first :: _ =>
    if isAsciiLetter first then String.mk [lowerAscii first] else String.mk [first]

/-- src/server.js line 74-78: the shard file name for a bucket. -/
def shardFilenameForBucket (bucket : String) : String :=
  bucket ++ ".json"

-- --- RecencyCache (entryCache, cacheGet, cacheSet) -------------------------

/-- The `entryCache` Map, as its insertion-ordered entry list:
the head is the oldest (least recently used) entry, the last element is
the most recently used.  JS `Map` iteration order is insertion order,
and `entryCache.keys().next().value` is the head. -/
abbrev CacheSt (V : Type u) : Type u := List (String × V)

/-- `cacheGet` (src/server.js lines 48-54): a miss returns `none` and
leaves the map alone; a hit deletes and re-inserts the entry, moving it
to the most-recently-used (last) position, and returns its value.
(`Map.delete` removes the unique entry with that key; on the key-nodup
states the code produces, `filter` is that deletion.) -/
def cacheGet {V : Type u} (cache : CacheSt V) (k : String) : Option V × CacheSt V :=
  match cache.find? (fun p => decide (p.1 = k)) with
  | none => (none, cache)
  | some p => (some p.2, cache.filter (fun q => decide (q.1 ≠ k)) ++ [(k, p.2)])

/-- `cacheSet` (src/server.js lines 55-61): delete the key if present,
append the new entry at the most-recent end, and if the size now
exceeds the capacity delete the first (oldest) entry. -/
def cacheSet {V : Type u} (C : Nat) (cache : CacheSt V) (k : String) (v : V) : CacheSt V :=
  let deleted := cache.filter (fun q => decide (q.1 ≠ k))
  let appended := deleted ++ [(k, v)]
  if C < appended.length then appended.tail else appended

/-- A cache operation: the two entry points of the recency cache. -/
inductive CacheOp (V : Type u) where
  | get (k : String)
  | put (k : String) (v : V)

/-- Run one cache operation for its state effect. -/
def applyCacheOp {V : Type u} (C : Nat) (st : CacheSt V) : CacheOp V → CacheSt V
  | CacheOp.get k => (cacheGet st k).2
  | CacheOp.put k v => cacheSet C st k v

/-- Run a sequence of cache operations from the empty cache. -/
def runCacheOps {V : Type u} (C : Nat) (ops : List (CacheOp V)) : CacheSt V :=
  ops.foldl (applyCacheOp C) []

-- --- ShardStore (shardCache, loadShard) ------------------------------------

/-- State of a file on disk, as `fsp.readFile` sees it. -/
inductive FsFile where
  | missing
  | unreadable
  | file (raw : String)

/-- The external world of the shard store: the file system and the JSON
parser (`JSON.parse` returns `none` on malformed input, i.e. throws). -/
structure Env (V : Type u) where
  fs : String → FsFile
  parse : String → Option (List (String × V))

/-- The shard content `loadShard` computes for a bucket: read the
bucket's file and parse it; the `catch` of src/server.js lines 101-107
turns a missing or unreadable file, and also a parse error, into the
empty shard. -/
def shardContentOf {V : Type u} (env : Env V) (bucket : String) : List (String × V) :=
  match env.fs (shardFilenameForBucket bucket) with
  | FsFile.missing => []
  | FsFile.unreadable => []
  | FsFile.file raw =>
    match env.parse raw with
    | some sh => sh
    | none => []

/-- The mutable shard-store state: the `shardCache` map from bucket to
its memoized (settled) load, plus an instrumentation log of the buckets
whose shard file was actually read (one entry per `fsp.readFile`
attempt), as §8 of the spec asks reads to be counted. -/
structure ShardSt (V : Type u) where
  shardCache : List (String × List (String × V))
  reads : List String

/-- The empty shard store at process start. -/
def emptyShardSt {V : Type u} : ShardSt V := { shardCache := [], reads := [] }

/-- Association-list lookup standing in for `Map.get`. -/
def lookupBucket {V : Type u} (b : String) (m : List (String × List (String × V))) :
    Option (List (String × V)) :=
  (m.find? (fun p => decide (p.1 = b))).map (fun p => p.2)

/-- `loadShard` (src/server.js lines 97-111).  In the source the
`shardCache.has` check, the creation of the load promise and the
`shardCache.set` run with no `await` in between, so on the single JS
event loop no other request can interleave: the whole call is one
atomic step, which is how it is modelled here.  A cached bucket is
returned without touching the file system; a fresh bucket reads its
file exactly once (logged in `reads`) and installs the result. -/
def loadShard {V : Type u} (env : Env V) (st : ShardSt V) (bucket : String) :
    List (String × V) × ShardSt V :=
  match lookupBucket bucket st.shardCache with
  | some sh => (sh, st)
  | none =>
    let sh := shardContentOf env bucket
    (sh, { shardCache := (bucket, sh) :: st.shardCache, reads := bucket :: st.reads })

/-- Fold a sequence of `loadShard` calls from the empty store. -/
def runLoads {V : Type u} (env : Env V) (bs : List String) : ShardSt V :=
  bs.foldl (fun st b => (loadShard env st b).2) emptyShardSt

-- --- Responses -------------------------------------------------------------

/-- Outcome of `GET /word/:key`: an entry (200), `Word not found`
(404), or `Server error` (500). -/
inductive WordResp (V : Type u) where
  | entry (v : V)
  | notFound
  | serverError

/-- Outcome of `GET /search`: a match list with its truncation flag
(200), `Missing ?q=` (400), or `Server error` (500). -/
inductive SearchResp where
  | results (ms : List String) (truncated : Bool)
  | badRequest
  | serverError
deriving DecidableEq

-- --- Exact lookup ----------------------------------------------------------

/-- The streaming exact scan (src/server.js lines 145-157): the
pipeline emits the source's members in order; the first member whose
key equals the wanted key destroys the stream and answers; `end`
without a match answers not-found.  Returns the result together with
the number of members examined. -/
def streamFind {V : Type u} (wanted : String) : List (String × V) → Option V × Nat
  | [] => (none, 0)
  | (k, v) :: rest =>
    if k = wanted then (some v, 1)
    else
      let r := streamFind wanted rest
      (r.1, r.2 + 1)

/-- `GET /word/:key` in sharded mode (src/server.js lines 118-138):
consult the recency cache, otherwise load the key's bucket shard and
look the key up in it, caching a hit. -/
def wordSharded {V : Type u} (C : Nat) (env : Env V) (st : ShardSt V)
    (cache : CacheSt V) (key : String) : WordResp V × CacheSt V × ShardSt V :=
  match cacheGet cache key with
  | (some v, cache2) => (WordResp.entry v, cache2, st)
  | (none, cache2) =>
    let r := loadShard env st (bucketOf key)
    match (r.1.find? (fun p => decide (p.1 = key))).map (fun p => p.2) with
    | some v => (WordResp.entry v, cacheSet C cache2 key v, r.2)
    | none => (WordResp.notFound, cache2, r.2)

/-- The effective limit of `GET /search` (src/server.js line 172):
`Math.min(Number(req.query.limit || 50), 200)`.  An absent or empty
parameter falls back to `50` before coercion. -/
def effLimit (limP : Option String) : JsNum :=
  jsMin
    (match limP with
     | none => JsNum.num 50
     | some s => if s = "" then JsNum.num 50 else jsNumber s)
    (JsNum.num 200)

/-- The sharded prefix loop (src/server.js lines 177-183): walk the
shard's keys in order, push each key starting with the query, and break
as soon as the match count reaches the limit. -/
def prefixLoop (q : String) (limit : JsNum) (acc : List String) :
    List String → List String
  | [] => acc
  | k :: rest =>
    if startsWithJs k q then
      let acc2 := acc ++ [k]
      if jsGe acc2.length limit then acc2 else prefixLoop q limit acc2 rest
    else prefixLoop q limit acc rest

/-- The streaming prefix scan (src/server.js lines 193-207): like the
sharded loop, but reaching the limit answers `truncated = true` from
inside the data handler and end-of-stream answers `truncated = false`;
the third component counts the members examined. -/
def streamPrefixLoop (q : String) (limit : JsNum) (acc : List String) :
    List String → List String × Bool × Nat
  | [] => (acc, false, 0)
  | k :: rest =>
    if startsWithJs k q then
      let acc2 := acc ++ [k]
      if jsGe acc2.length limit then (acc2, true, 1)
      else
        let r := streamPrefixLoop q limit acc2 rest
        (r.1, r.2.1, r.2.2 + 1)
    else
      let r := streamPrefixLoop q limit acc rest
      (r.1, r.2.1, r.2.2 + 1)

/-- `GET /search` in sharded mode (src/server.js lines 167-186): guard
against a blank query, compute the effective limit, load exactly the
shard of the trimmed query's bucket and scan its keys.  The recency
cache is threaded through untouched, exactly as in the handler, which
never references it. -/
def searchSharded {V : Type u} (env : Env V) (st : ShardSt V) (cache : CacheSt V)
    (qP limP : Option String) : SearchResp × CacheSt V × ShardSt V :=
  let q := jsTrim (qP.getD "")
  if q = "" then (SearchResp.badRequest, cache, st)
  else
    let limit := effLimit limP
    let r := loadShard env st (bucketOf q)
    let ms := prefixLoop q limit [] (r.1.map (fun p => p.1))
    (SearchResp.results ms (jsGe ms.length limit), cache, r.2)

/-- `GET /search` in streaming mode (src/server.js lines 167-172 and
188-207); the third component counts the source members examined (zero
when the blank-query guard answers 400 before any streaming). -/
def searchStream {V : Type u} (dataset : List (String × V)) (cache : CacheSt V)
    (qP limP : Option String) : SearchResp × CacheSt V × Nat :=
  let q := jsTrim (qP.getD "")
  if q = "" then (SearchResp.badRequest, cache, 0)
  else
    let limit := effLimit limP
    let r := streamPrefixLoop q limit [] (dataset.map (fun p => p.1))
    (SearchResp.results r.1 r.2.1, cache, r.2.2)

-- === Helper lemmas =========================================================

/-- A second call of `loadShard` on the same bucket returns the settled
memo and performs no state change. -/
theorem loadShard_idem {V : Type u} (env : Env V) (st : ShardSt V) (b : String) :
    loadShard env (loadShard env st b).2 b = loadShard env st b := by
  unfold loadShard
  cases h : lookupBucket b st.shardCache with
  | some sh => simp [h]
  | none =>
    simp only [h]
    have : lookupBucket b ((b, shardContentOf env b) :: st.shardCache) =
        some (shardContentOf env b) := by
      simp [lookupBucket, List.find?]
    simp [this]

/-- The invariant tying the read log to the memo table: every logged
bucket is memoized, and no bucket is logged twice. -/
def shardInv {V : Type u} (st : ShardSt V) : Prop :=
  st.reads.Nodup ∧ ∀ b ∈ st.reads, (lookupBucket b st.shardCache).isSome

theorem shardInv_empty {V : Type u} : shardInv (emptyShardSt (V := V)) := by
  constructor
  · exact List.nodup_nil
  · intro b hb; cases hb

/-- Consing a memo entry for a different bucket does not change a
lookup. -/
theorem lookupBucket_cons_ne {V : Type u} (b b2 : String) (sh : List (String × V))
    (m : List (String × List (String × V))) (h : ¬ b = b2) :
    lookupBucket b2 ((b, sh) :: m) = lookupBucket b2 m := by
  simp [lookupBucket, List.find?, h]

theorem loadShard_preserves_inv {V : Type u} (env : Env V) (st : ShardSt V) (b : String)
    (h : shardInv st) : shardInv (loadShard env st b).2 := by
  unfold loadShard
  cases hl : lookupBucket b st.shardCache with
  | some sh => exact h
  | none =>
    refine ⟨?_, ?_⟩
    · refine List.Nodup.cons ?_ h.1
      intro hb
      have := h.2 b hb
      rw [hl] at this
      cases this
    · intro b2 hb2
      rcases List.mem_cons.mp hb2 with h2 | h2
      · subst h2
        simp [lookupBucket, List.find?]
      · have hmem := h.2 b2 h2
        have hne : ¬ b = b2 := by
          intro he
          subst he
          rw [hl] at hmem
          cases hmem
        rw [lookupBucket_cons_ne b b2 _ _ hne]
        exact hmem

theorem runLoads_inv {V : Type u} (env : Env V) (bs : List String) :
    shardInv (runLoads env bs) := by
  unfold runLoads
  have : ∀ (l : List String) (st : ShardSt V), shardInv st →
      shardInv (l.foldl (fun s b => (loadShard env s b).2) st) := by
    intro l
    induction l with
    | nil => intro st h; exact h
    | cons b rest ih =>
      intro st h
      exact ih _ (loadShard_preserves_inv env st b h)
  exact this bs emptyShardSt shardInv_empty

-- === C3 ====================================================================

/-- C3: for every bucket the shard file is read at most once per
process lifetime: over any sequence of `loadShard` calls from startup,
each bucket appears at most once in the read log, and a repeated call
on a bucket returns the already-settled load without touching the
state, so later lookups share the single load. -/
theorem C3_shard_load_once {V : Type u} (env : Env V) :
    (∀ (bs : List String) (b : String), (runLoads env bs).reads.count b ≤ 1) ∧
    (∀ (st : ShardSt V) (b : String),
      loadShard env (loadShard env st b).2 b = loadShard env st b) := by
  constructor
  · intro bs b
    exact List.nodup_iff_count_le_one.mp (runLoads_inv env bs).1 b
  · intro st b
    exact loadShard_idem env st b

-- === C4 ====================================================================

/-- C4: `bucketOf` is a total deterministic function of the key with
exactly the described behaviour: a key trimming to the empty string
routes to the reserved misc bucket; otherwise the first codepoint of
the trimmed key decides the bucket, lowercased when it is an ASCII
letter and kept as its own textual form otherwise; repeated calls
agree. -/
theorem C4_bucket_routing (key : String) :
    (jsTrim key = "" → bucketOf key = "_misc") ∧
    (∀ (c : Char) (cs : List Char), (jsTrim key).toList = c :: cs →
      (isAsciiLetter c = true → bucketOf key = String.mk [lowerAscii c]) ∧
      (isAsciiLetter c = false → bucketOf key = String.mk [c])) ∧
    bucketOf key = bucketOf key := by
  have hb : bucketOf key =
      (match (jsTrim key).data with
       | [] => "_misc"
       | first :: _ =>
         if isAsciiLetter first then String.mk [lowerAscii first] else String.mk [first]) := rfl
  refine ⟨?_, ?_, rfl⟩
  · intro h
    have h2 : (jsTrim key).data = [] := by rw [h]
    rw [hb, h2]
  · intro c cs h
    have h2 : (jsTrim key).data = c :: cs := h
    constructor <;> intro hc <;> rw [hb, h2] <;> simp [hc]

/-- Witness for C4 at the concrete key `"  Apple "`. -/
theorem C4_bucket_routing_witness :
    isAsciiLetter 'A' = true → bucketOf "  Apple " = String.mk [lowerAscii 'A'] :=
  ((C4_bucket_routing "  Apple ").2.1 'A' "pple".toList (by rfl)).1

-- === C1 ====================================================================

/-- The environment of the C1 failing input: the shard file of every
bucket exists and is readable but holds malformed JSON, so every
`JSON.parse` of it throws. -/
def envParseErr : Env Unit :=
  { fs := fun _ => FsFile.file "not valid json", parse := fun _ => none }

/-- C1: evaluation of the code at the failing input.  The shard file
behind bucket `t` exists but cannot be parsed; `loadShard` swallows the
parse error into an empty shard, so the exact lookup answers NotFound
(404) and the prefix search answers an empty, untruncated match set:
the fault is never surfaced, contradicting the claim that an I/O or
parse error on an existing shard file propagates as a Fault. -/
theorem C1_parse_error_swallowed :
    (wordSharded 1000 envParseErr emptyShardSt ([] : CacheSt Unit) "tree").1 =
      WordResp.notFound ∧
    (searchSharded envParseErr emptyShardSt ([] : CacheSt Unit) (some "tr") none).1 =
      SearchResp.results [] false := by
  exact ⟨rfl, rfl⟩

-- === C5 ====================================================================

theorem streamFind_first_match {V : Type u} (wanted : String) (v : V)
    (post : List (String × V)) :
    ∀ pre : List (String × V), wanted ∉ pre.map Prod.fst →
      streamFind wanted (pre ++ (wanted, v) :: post) = (some v, pre.length + 1) := by
  intro pre
  induction pre with
  | nil => intro _; simp [streamFind]
  | cons p rest ih =>
    intro h
    obtain ⟨k, w⟩ := p
    simp only [List.map_cons, List.mem_cons, not_or] at h
    have hk : ¬ k = wanted := fun he => h.1 he.symm
    have hr := ih h.2
    show (if k = wanted then (some w, 1)
      else ((streamFind wanted (rest ++ (wanted, v) :: post)).1,
        (streamFind wanted (rest ++ (wanted, v) :: post)).2 + 1)) =
      (some v, rest.length + 1 + 1)
    rw [if_neg hk, hr]

theorem streamFind_none_iff_end {V : Type u} (wanted : String) :
    ∀ ds : List (String × V), (streamFind wanted ds).1 = none →
      (streamFind wanted ds).2 = ds.length ∧ wanted ∉ ds.map Prod.fst := by
  intro ds
  induction ds with
  | nil => intro _; simp [streamFind]
  | cons p rest ih =>
    intro h
    obtain ⟨k, w⟩ := p
    by_cases hk : k = wanted
    · simp [streamFind, hk] at h
    · have hexp : streamFind wanted ((k, w) :: rest) =
          ((streamFind wanted rest).1, (streamFind wanted rest).2 + 1) := by
        show (if k = wanted then (some w, 1)
          else ((streamFind wanted rest).1, (streamFind wanted rest).2 + 1)) = _
        rw [if_neg hk]
      rw [hexp] at h ⊢
      have hrec := ih h
      refine ⟨by simp [hrec.1], ?_⟩
      simp only [List.map_cons, List.mem_cons]
      rintro (he | he)
      · exact hk he.symm
      · exact hrec.2 he

/-- C5: the streaming exact scan stops at the first member whose key
matches: when the wanted key first occurs after `pre` members, exactly
`pre.length + 1` members are examined, independent of what follows; and
a NotFound outcome arises exactly at end of stream, after examining the
whole member sequence, when no key matches. -/
theorem C5_stream_exact_early_exit {V : Type u} (wanted : String) (ds : List (String × V)) :
    (∀ (pre : List (String × V)) (v : V) (post : List (String × V)),
      ds = pre ++ (wanted, v) :: post → wanted ∉ pre.map Prod.fst →
      streamFind wanted ds = (some v, pre.length + 1)) ∧
    ((streamFind wanted ds).1 = none →
      (streamFind wanted ds).2 = ds.length ∧ wanted ∉ ds.map Prod.fst) := by
  constructor
  · intro pre v post hds hpre
    rw [hds]
    exact streamFind_first_match wanted v post pre hpre
  · exact streamFind_none_iff_end wanted ds

/-- Witness for C5: in a three-member source whose second member is the
match, the scan answers after examining two members, never reaching the
third. -/
theorem C5_stream_exact_early_exit_witness :
    streamFind "car" [("cat", 1), ("car", 2), ("cap", 3)] = (some 2, 2) :=
  (C5_stream_exact_early_exit "car" [("cat", 1), ("car", 2), ("cap", 3)]).1
    [("cat", 1)] 2 [("cap", 3)] rfl (by decide)


-- === C2 ====================================================================

/-- `cacheSet` with its let-bindings expanded. -/
theorem cacheSet_eq {V : Type u} (C : Nat) (st : CacheSt V) (k : String) (v : V) :
    cacheSet C st k v =
      (if C < (st.filter (fun q => decide (q.1 ≠ k)) ++ [(k, v)]).length
       then (st.filter (fun q => decide (q.1 ≠ k)) ++ [(k, v)]).tail
       else st.filter (fun q => decide (q.1 ≠ k)) ++ [(k, v)]) := rfl

/-- Deleting a key that is not present leaves the cache unchanged. -/
theorem filter_ne_of_fresh {V : Type u} (st : CacheSt V) (k : String)
    (h : k ∉ st.map Prod.fst) :
    st.filter (fun q => decide (q.1 ≠ k)) = st := by
  apply List.filter_eq_self.mpr
  intro a ha
  simp only [decide_eq_true_eq]
  intro he
  exact h (he ▸ List.mem_map_of_mem Prod.fst ha)

/-- A cache read never increases the cache size. -/
theorem cacheGet_length_le {V : Type u} (st : CacheSt V) (k : String) :
    ((cacheGet st k).2).length ≤ st.length := by
  unfold cacheGet
  cases hf : st.find? (fun p => decide (p.1 = k)) with
  | none => exact Nat.le_refl _
  | some p =>
    show (st.filter (fun q => decide (q.1 ≠ k)) ++ [(k, p.2)]).length ≤ st.length
    have hmem : p ∈ st := List.mem_of_find?_eq_some hf
    have hp : p.1 = k := by
      have h1 := List.find?_some hf
      simp only [decide_eq_true_eq] at h1
      exact h1
    have hlt : (st.filter (fun q => decide (q.1 ≠ k))).length < st.length := by
      refine List.length_filter_lt_length_iff_exists.mpr ⟨p, hmem, ?_⟩
      simp [hp]
    simp only [List.length_append, List.length_cons, List.length_nil]
    omega

/-- A completed put keeps the size within capacity. -/
theorem cacheSet_length_le {V : Type u} (C : Nat) (st : CacheSt V) (k : String) (v : V)
    (h : st.length ≤ C) : (cacheSet C st k v).length ≤ C := by
  have hf : (st.filter (fun q => decide (q.1 ≠ k))).length ≤ st.length :=
    List.length_filter_le _ _
  rw [cacheSet_eq]
  split
  · next hlen =>
    simp only [List.length_tail, List.length_append, List.length_cons, List.length_nil]
    omega
  · next hlen =>
    simp only [List.length_append, List.length_cons, List.length_nil] at hlen ⊢
    omega

/-- From the empty cache, any operation sequence keeps size at most C. -/
theorem runCacheOps_length_le {V : Type u} (C : Nat) (ops : List (CacheOp V)) :
    (runCacheOps C ops).length ≤ C := by
  unfold runCacheOps
  have hstep : ∀ (l : List (CacheOp V)) (st : CacheSt V), st.length ≤ C →
      (l.foldl (applyCacheOp C) st).length ≤ C := by
    intro l
    induction l with
    | nil => intro st h; exact h
    | cons op rest ih =>
      intro st h
      refine ih _ ?_
      cases op with
      | get k => exact Nat.le_trans (cacheGet_length_le st k) h
      | put k v => exact cacheSet_length_le C st k v h
  exact hstep ops [] (Nat.zero_le C)

/-- Putting fresh, pairwise-distinct keys into a cache holding exactly
one entry less than their count plus capacity appends them in order,
with the single final eviction dropping the oldest entry. -/
theorem foldPut_fills {V : Type u} (C : Nat) :
    ∀ (ps : List (String × V)) (st : CacheSt V),
      (∀ p ∈ ps, p.1 ∉ st.map Prod.fst) → (ps.map Prod.fst).Nodup →
      st.length ≤ C → st.length + ps.length = C + 1 →
      ps.foldl (fun acc p => cacheSet C acc p.1 p.2) st = (st ++ ps).tail := by
  intro ps
  induction ps with
  | nil =>
    intro st _ _ hle hlen
    simp only [List.length_nil, Nat.add_zero] at hlen
    omega
  | cons p rest ih =>
    intro st hfresh hnodup hle hlen
    obtain ⟨k, v⟩ := p
    rw [List.length_cons] at hlen
    have hkfresh : k ∉ st.map Prod.fst := hfresh (k, v) (List.mem_cons_self _ _)
    have hknodup : k ∉ rest.map Prod.fst ∧ (rest.map Prod.fst).Nodup := by
      simpa only [List.map_cons, List.nodup_cons] using hnodup
    have hset : cacheSet C st k v =
        if C < st.length + 1 then (st ++ [(k, v)]).tail else st ++ [(k, v)] := by
      rw [cacheSet_eq, filter_ne_of_fresh st k hkfresh]
      simp only [List.length_append, List.length_cons, List.length_nil]
    rw [List.foldl_cons, hset]
    by_cases hC : C < st.length + 1
    · have hrest : rest = [] := by
        have : rest.length = 0 := by omega
        exact List.length_eq_zero.mp this
      subst hrest
      rw [if_pos hC]
      rfl
    · rw [if_neg hC]
      have hlen2 : (st ++ [(k, v)]).length ≤ C := by
        simp only [List.length_append, List.length_cons, List.length_nil]
        omega
      have hres := ih (st ++ [(k, v)]) ?_ hknodup.2 hlen2 ?_
      · rw [hres, List.append_assoc]
        rfl
      · intro p2 hp2
        have hk2 : p2.1 ∈ rest.map Prod.fst := List.mem_map_of_mem Prod.fst hp2
        simp only [List.map_append, List.mem_append, List.map_cons, List.mem_cons,
          List.map_nil, List.not_mem_nil, not_or]
        refine ⟨fun hmem => hfresh p2 (List.mem_cons_of_mem _ hp2) hmem, ?_, fun hfalse => hfalse⟩
        intro he
        exact hknodup.1 (he ▸ hk2)
      · simp only [List.length_append, List.length_cons, List.length_nil]
        omega

/-- C2: the recency cache keeps size at most C after any sequence of
operations from startup; a hit moves the entry to the most-recently-
used (last) position before returning; and a sequence of C + 1 puts of
pairwise-distinct fresh keys evicts exactly the first-inserted (least
recently used) key, leaving precisely the other C entries in order. -/
theorem C2_recency_cache (V : Type u) (C : Nat) :
    (∀ ops : List (CacheOp V), (runCacheOps C ops).length ≤ C) ∧
    (∀ (st : CacheSt V) (k : String) (v : V), (cacheGet st k).1 = some v →
      (cacheGet st k).2.getLast? = some (k, v)) ∧
    (∀ (ps : List (String × V)) (k0 : String) (v0 : V) (rest : List (String × V)),
      ps = (k0, v0) :: rest → ps.length = C + 1 → (ps.map Prod.fst).Nodup →
      runCacheOps C (ps.map (fun p => CacheOp.put p.1 p.2)) = rest ∧
      k0 ∉ rest.map Prod.fst) := by
  refine ⟨runCacheOps_length_le C, ?_, ?_⟩
  · intro st k v hv
    unfold cacheGet at hv ⊢
    cases hf : st.find? (fun p => decide (p.1 = k)) with
    | none => rw [hf] at hv; cases hv
    | some p =>
      rw [hf] at hv
      have hv2 : some p.2 = some v := hv
      have hveq : p.2 = v := by injection hv2
      show (st.filter (fun q => decide (q.1 ≠ k)) ++ [(k, p.2)]).getLast? = some (k, v)
      rw [hveq]
      exact List.getLast?_concat _
  · intro ps k0 v0 rest hps hlen hnodup
    have hfold : runCacheOps C (ps.map (fun p => CacheOp.put p.1 p.2)) =
        ps.foldl (fun acc p => cacheSet C acc p.1 p.2) [] := by
      unfold runCacheOps
      rw [List.foldl_map]
      rfl
    have hmain := foldPut_fills C ps [] (by intro p _ hmem; cases hmem) hnodup
      (Nat.zero_le C) (by simpa using hlen)
    refine ⟨?_, ?_⟩
    · rw [hfold, hmain, hps]
      rfl
    · rw [hps] at hnodup
      simp only [List.map_cons, List.nodup_cons] at hnodup
      exact hnodup.1

/-- Witness for C2: with capacity 2, putting three distinct keys
evicts exactly the first one. -/
theorem C2_recency_cache_witness :
    runCacheOps 2 ([("a", 1), ("b", 2), ("c", 3)].map (fun p => CacheOp.put p.1 p.2)) =
      [("b", (2 : Nat)), ("c", 3)] ∧
    "a" ∉ ([("b", (2 : Nat)), ("c", 3)].map Prod.fst) :=
  (C2_recency_cache Nat 2).2.2 [("a", 1), ("b", 2), ("c", 3)] "a" 1
    [("b", 2), ("c", 3)] rfl (by decide) (by decide)

-- === Prefix-scan lemmas (C6, C7) ===========================================

theorem jsGe_num (n : Nat) (m : Int) : jsGe n (JsNum.num m) = decide (m ≤ (n : Int)) := rfl

theorem prefixLoop_cons (q : String) (limit : JsNum) (acc : List String)
    (k : String) (rest : List String) :
    prefixLoop q limit acc (k :: rest) =
      (if startsWithJs k q then
        (if jsGe (acc ++ [k]).length limit then acc ++ [k]
         else prefixLoop q limit (acc ++ [k]) rest)
      else prefixLoop q limit acc rest) := rfl

theorem streamPrefixLoop_cons (q : String) (limit : JsNum) (acc : List String)
    (k : String) (rest : List String) :
    streamPrefixLoop q limit acc (k :: rest) =
      (if startsWithJs k q then
        (if jsGe (acc ++ [k]).length limit then ((acc ++ [k]), true, 1)
         else ((streamPrefixLoop q limit (acc ++ [k]) rest).1,
           (streamPrefixLoop q limit (acc ++ [k]) rest).2.1,
           (streamPrefixLoop q limit (acc ++ [k]) rest).2.2 + 1))
      else ((streamPrefixLoop q limit acc rest).1,
        (streamPrefixLoop q limit acc rest).2.1,
        (streamPrefixLoop q limit acc rest).2.2 + 1)) := rfl

/-- With a positive numeric limit, the sharded prefix loop collects the
prefix matches in encounter order until the limit is reached. -/
theorem prefixLoop_take (q : String) (L : Int) (hL : 1 ≤ L) :
    ∀ (keys acc : List String), acc.length < L.toNat →
      prefixLoop q (JsNum.num L) acc keys =
        acc ++ (keys.filter (fun k => startsWithJs k q)).take (L.toNat - acc.length) := by
  intro keys
  induction keys with
  | nil => intro acc _; simp [prefixLoop]
  | cons k rest ih =>
    intro acc hacc
    rw [prefixLoop_cons]
    cases hk : startsWithJs k q with
    | false =>
      simp only [Bool.false_eq_true, if_false, List.filter_cons, hk]
      exact ih acc hacc
    | true =>
      simp only [if_true, List.filter_cons, hk]
      rw [jsGe_num]
      simp only [List.length_append, List.length_cons, List.length_nil]
      by_cases hbr : L ≤ ((acc.length + 1 : Nat) : Int)
      · rw [if_pos (by simpa using hbr)]
        have hone : L.toNat - acc.length = 1 := by omega
        rw [hone]
        simp
      · rw [if_neg (by simpa using hbr)]
        have hlt : (acc ++ [k]).length < L.toNat := by
          simp only [List.length_append, List.length_cons, List.length_nil]
          omega
        rw [ih (acc ++ [k]) hlt]
        have hd : L.toNat - acc.length = (L.toNat - (acc ++ [k]).length) + 1 := by
          simp only [List.length_append, List.length_cons, List.length_nil]
          omega
        rw [hd, List.take_succ_cons, List.append_assoc]
        rfl

/-- With a positive numeric limit, the streaming prefix scan collects
the same matches and reports `truncated` exactly when the limit was
reached before end of stream. -/
theorem streamPrefixLoop_take (q : String) (L : Int) (hL : 1 ≤ L) :
    ∀ (keys acc : List String), acc.length < L.toNat →
      (streamPrefixLoop q (JsNum.num L) acc keys).1 =
        acc ++ (keys.filter (fun k => startsWithJs k q)).take (L.toNat - acc.length) ∧
      (streamPrefixLoop q (JsNum.num L) acc keys).2.1 =
        decide (L.toNat - acc.length ≤ (keys.filter (fun k => startsWithJs k q)).length) := by
  intro keys
  induction keys with
  | nil =>
    intro acc hacc
    have hgt : ¬ (L.toNat - acc.length ≤ 0) := by omega
    simp [streamPrefixLoop, hgt]
  | cons k rest ih =>
    intro acc hacc
    rw [streamPrefixLoop_cons]
    cases hk : startsWithJs k q with
    | false =>
      simp only [Bool.false_eq_true, if_false, List.filter_cons, hk]
      exact ih acc hacc
    | true =>
      simp only [if_true, List.filter_cons, hk]
      rw [jsGe_num]
      simp only [List.length_append, List.length_cons, List.length_nil]
      by_cases hbr : L ≤ ((acc.length + 1 : Nat) : Int)
      · rw [if_pos (by simpa using hbr)]
        have hone : L.toNat - acc.length = 1 := by omega
        rw [hone]
        have hle : L.toNat - acc.length ≤ (k :: rest.filter (fun k => startsWithJs k q)).length := by
          simp only [List.length_cons]
          omega
        rw [hone] at hle
        simp [hle]
      · rw [if_neg (by simpa using hbr)]
        have hlt : (acc ++ [k]).length < L.toNat := by
          simp only [List.length_append, List.length_cons, List.length_nil]
          omega
        have hrec := ih (acc ++ [k]) hlt
        have hd : L.toNat - acc.length = (L.toNat - (acc ++ [k]).length) + 1 := by
          simp only [List.length_append, List.length_cons, List.length_nil]
          omega
        refine ⟨?_, ?_⟩
        · rw [hrec.1, hd, List.take_succ_cons, List.append_assoc]
          rfl
        · rw [hrec.2, hd, decide_eq_decide]
          simp only [List.length_append, List.length_cons, List.length_nil]
          omega

-- === C6 ====================================================================

/-- C6: with a positive numeric limit L, both the sharded scan and the
streaming scan return the prefix matches in encounter order, cut off at
L, and report truncation exactly when L matches were reached; in
particular limit 2 against at least 3 matching keys yields exactly 2
matches with truncated = true, and limit 10 against exactly 3 matching
keys yields those 3 matches with truncated = false. -/
theorem C6_prefix_truncation (q : String) (keys : List String) (L : Int) (hL : 1 ≤ L) :
    (prefixLoop q (JsNum.num L) [] keys =
        (keys.filter (fun k => startsWithJs k q)).take L.toNat ∧
      jsGe (prefixLoop q (JsNum.num L) [] keys).length (JsNum.num L) =
        decide (L.toNat ≤ (keys.filter (fun k => startsWithJs k q)).length)) ∧
    ((streamPrefixLoop q (JsNum.num L) [] keys).1 =
        (keys.filter (fun k => startsWithJs k q)).take L.toNat ∧
      (streamPrefixLoop q (JsNum.num L) [] keys).2.1 =
        decide (L.toNat ≤ (keys.filter (fun k => startsWithJs k q)).length)) ∧
    (L = 2 → 3 ≤ (keys.filter (fun k => startsWithJs k q)).length →
      (prefixLoop q (JsNum.num L) [] keys).length = 2 ∧
      jsGe (prefixLoop q (JsNum.num L) [] keys).length (JsNum.num L) = true) ∧
    (L = 10 → (keys.filter (fun k => startsWithJs k q)).length = 3 →
      prefixLoop q (JsNum.num L) [] keys = keys.filter (fun k => startsWithJs k q) ∧
      jsGe (prefixLoop q (JsNum.num L) [] keys).length (JsNum.num L) = false) := by
  have hpos : (0 : Nat) < L.toNat := by omega
  have hshard := prefixLoop_take q L hL keys [] (by simpa using hpos)
  have hstream := streamPrefixLoop_take q L hL keys [] (by simpa using hpos)
  simp only [List.nil_append, List.length_nil, Nat.sub_zero] at hshard hstream
  have hlen : (prefixLoop q (JsNum.num L) [] keys).length =
      min L.toNat (keys.filter (fun k => startsWithJs k q)).length := by
    rw [hshard, List.length_take]
  have htr : jsGe (prefixLoop q (JsNum.num L) [] keys).length (JsNum.num L) =
      decide (L.toNat ≤ (keys.filter (fun k => startsWithJs k q)).length) := by
    rw [hlen, jsGe_num, decide_eq_decide]
    rcases Nat.le_total L.toNat (keys.filter (fun k => startsWithJs k q)).length with h | h
    · rw [Nat.min_eq_left h]
      constructor
      · intro _; exact h
      · intro _; omega
    · rw [Nat.min_eq_right h]
      constructor
      · intro hc; omega
      · intro hc; omega
  refine ⟨⟨hshard, htr⟩, hstream, ?_, ?_⟩
  · intro hL2 hm
    subst hL2
    refine ⟨?_, ?_⟩
    · rw [hlen]
      omega
    · rw [htr]
      simp only [decide_eq_true_eq]
      omega
  · intro hL10 hm
    subst hL10
    refine ⟨?_, ?_⟩
    · rw [hshard]
      exact List.take_of_length_le (by omega)
    · rw [htr, hm]
      simp

/-- Witness for C6 at limit 2 over a shard holding four keys of which
three match the prefix: exactly two are returned, truncated. -/
theorem C6_prefix_truncation_witness :
    prefixLoop "ca" (JsNum.num 2) [] ["cat", "dog", "car", "cap"] =
      (["cat", "dog", "car", "cap"].filter (fun k => startsWithJs k "ca")).take (2 : Int).toNat ∧
    jsGe (prefixLoop "ca" (JsNum.num 2) [] ["cat", "dog", "car", "cap"]).length (JsNum.num 2) =
      decide ((2 : Int).toNat ≤ (["cat", "dog", "car", "cap"].filter (fun k => startsWithJs k "ca")).length) :=
  (C6_prefix_truncation "ca" ["cat", "dog", "car", "cap"] 2 (by decide)).1

-- === C7 ====================================================================

/-- With a non-positive numeric limit the first match already breaks
the sharded loop, so at most one match beyond the accumulator is
collected. -/
theorem prefixLoop_len_nonpos (q : String) (L : Int) (hL : L ≤ 0) :
    ∀ (keys acc : List String),
      (prefixLoop q (JsNum.num L) acc keys).length ≤ acc.length + 1 := by
  intro keys
  induction keys with
  | nil => intro acc; simp [prefixLoop]
  | cons k rest ih =>
    intro acc
    rw [prefixLoop_cons]
    cases hk : startsWithJs k q with
    | false =>
      simp only [Bool.false_eq_true, if_false]
      exact ih acc
    | true =>
      simp only [if_true]
      have hbreak : jsGe (acc ++ [k]).length (JsNum.num L) = true := by
        rw [jsGe_num, decide_eq_true_eq]
        omega
      rw [hbreak, if_pos rfl]
      simp only [List.length_append, List.length_cons, List.length_nil]
      omega

/-- Streaming analogue of `prefixLoop_len_nonpos`. -/
theorem streamPrefixLoop_len_nonpos (q : String) (L : Int) (hL : L ≤ 0) :
    ∀ (keys acc : List String),
      (streamPrefixLoop q (JsNum.num L) acc keys).1.length ≤ acc.length + 1 := by
  intro keys
  induction keys with
  | nil => intro acc; simp [streamPrefixLoop]
  | cons k rest ih =>
    intro acc
    rw [streamPrefixLoop_cons]
    cases hk : startsWithJs k q with
    | false =>
      simp only [Bool.false_eq_true, if_false]
      exact ih acc
    | true =>
      simp only [if_true]
      have hbreak : jsGe (acc ++ [k]).length (JsNum.num L) = true := by
        rw [jsGe_num, decide_eq_true_eq]
        omega
      rw [hbreak, if_pos rfl]
      simp only [List.length_append, List.length_cons, List.length_nil]
      omega

/-- Any numeric limit at most 200 bounds the sharded match count by
200. -/
theorem prefixLoop_nil_length_le (q : String) (keys : List String) (n : Int)
    (hn : n ≤ 200) : (prefixLoop q (JsNum.num n) [] keys).length ≤ 200 := by
  by_cases h1 : 1 ≤ n
  · rw [prefixLoop_take q n h1 keys [] (by simp; omega)]
    simp only [List.nil_append, List.length_nil, Nat.sub_zero, List.length_take]
    exact Nat.le_trans (Nat.min_le_left _ _) (by omega)
  · have := prefixLoop_len_nonpos q n (by omega) keys []
    simp only [List.length_nil] at this
    omega

/-- Any numeric limit at most 200 bounds the streaming match count by
200. -/
theorem streamPrefixLoop_nil_length_le (q : String) (keys : List String) (n : Int)
    (hn : n ≤ 200) : (streamPrefixLoop q (JsNum.num n) [] keys).1.length ≤ 200 := by
  by_cases h1 : 1 ≤ n
  · rw [(streamPrefixLoop_take q n h1 keys [] (by simp; omega)).1]
    simp only [List.nil_append, List.length_nil, Nat.sub_zero, List.length_take]
    exact Nat.le_trans (Nat.min_le_left _ _) (by omega)
  · have := streamPrefixLoop_len_nonpos q n (by omega) keys []
    simp only [List.length_nil] at this
    omega

/-- `searchSharded` with its let-bindings expanded. -/
theorem searchSharded_eq {V : Type u} (env : Env V) (st : ShardSt V) (cache : CacheSt V)
    (qP limP : Option String) :
    searchSharded env st cache qP limP =
      (if jsTrim (qP.getD "") = "" then (SearchResp.badRequest, cache, st)
       else
         (SearchResp.results
            (prefixLoop (jsTrim (qP.getD "")) (effLimit limP) []
              (((loadShard env st (bucketOf (jsTrim (qP.getD "")))).1).map (fun p => p.1)))
            (jsGe (prefixLoop (jsTrim (qP.getD "")) (effLimit limP) []
              (((loadShard env st (bucketOf (jsTrim (qP.getD "")))).1).map (fun p => p.1))).length
              (effLimit limP)),
          cache,
          (loadShard env st (bucketOf (jsTrim (qP.getD "")))).2)) := rfl

/-- `searchStream` with its let-bindings expanded. -/
theorem searchStream_eq {V : Type u} (dataset : List (String × V)) (cache : CacheSt V)
    (qP limP : Option String) :
    searchStream dataset cache qP limP =
      (if jsTrim (qP.getD "") = "" then (SearchResp.badRequest, cache, 0)
       else
         (SearchResp.results
            (streamPrefixLoop (jsTrim (qP.getD "")) (effLimit limP) []
              (dataset.map (fun p => p.1))).1
            (streamPrefixLoop (jsTrim (qP.getD "")) (effLimit limP) []
              (dataset.map (fun p => p.1))).2.1,
          cache,
          (streamPrefixLoop (jsTrim (qP.getD "")) (effLimit limP) []
            (dataset.map (fun p => p.1))).2.2)) := rfl

/-- C7 (amended): when the limit parameter is absent the effective
limit is 50; whenever the effective limit is a number n (in particular
for every numeric limit parameter), n is at most 200 and no response
carries more than 200 matches.  (A non-numeric limit parameter coerces
to NaN, defeats every limit comparison and so disables truncation; see
the counterexample.) -/
theorem C7_limit_cap_amended {V : Type u} (env : Env V) (st : ShardSt V)
    (cache : CacheSt V) (dataset : List (String × V)) (qP limP : Option String)
    (n : Int) (hn : effLimit limP = JsNum.num n) :
    effLimit none = JsNum.num 50 ∧ n ≤ 200 ∧
    (∀ (ms : List String) (tr : Bool) (cache2 : CacheSt V) (st2 : ShardSt V),
      searchSharded env st cache qP limP = (SearchResp.results ms tr, cache2, st2) →
      ms.length ≤ 200) ∧
    (∀ (ms : List String) (tr : Bool) (cache2 : CacheSt V) (cnt : Nat),
      searchStream dataset cache qP limP = (SearchResp.results ms tr, cache2, cnt) →
      ms.length ≤ 200) := by
  have h200 : n ≤ 200 := by
    unfold effLimit at hn
    cases hbase : (match limP with
      | none => JsNum.num 50
      | some s => if s = "" then JsNum.num 50 else jsNumber s) with
    | nan => rw [hbase] at hn; cases hn
    | num a =>
      rw [hbase] at hn
      unfold jsMin at hn
      have : min a 200 = n := by injection hn
      omega
  refine ⟨rfl, h200, ?_, ?_⟩
  · intro ms tr cache2 st2 h
    rw [searchSharded_eq] at h
    by_cases hq : jsTrim (qP.getD "") = ""
    · rw [if_pos hq] at h
      simp only [Prod.mk.injEq] at h
      cases h.1
    · rw [if_neg hq, hn] at h
      simp only [Prod.mk.injEq, SearchResp.results.injEq] at h
      rw [← h.1.1]
      exact prefixLoop_nil_length_le _ _ n h200
  · intro ms tr cache2 cnt h
    rw [searchStream_eq] at h
    by_cases hq : jsTrim (qP.getD "") = ""
    · rw [if_pos hq] at h
      simp only [Prod.mk.injEq] at h
      cases h.1
    · rw [if_neg hq, hn] at h
      simp only [Prod.mk.injEq, SearchResp.results.injEq] at h
      rw [← h.1.1]
      exact streamPrefixLoop_nil_length_le _ _ n h200

/-- Extract the match list of a search response (empty for non-result
responses). -/
def searchMatchesOf (r : SearchResp) : List String :=
  match r with
  | SearchResp.results ms _ => ms
  | SearchResp.badRequest => []
  | SearchResp.serverError => []

/-- 201 distinct keys that all start with the query prefix. -/
def keys201 : List (String × Unit) :=
  (List.range 201).map (fun i => ("a" ++ toString i, ()))

/-- A shard environment whose bucket file parses to those 201 keys. -/
def env201 : Env Unit :=
  { fs := fun _ => FsFile.file "irrelevant", parse := fun _ => some keys201 }

set_option maxRecDepth 4000 in
/-- Counterexample for C7: a supplied non-numeric limit parameter
coerces to NaN; `Math.min(NaN, 200)` is NaN, every length-versus-limit
comparison with NaN is false, so the loop never breaks and the
response carries 201 > 200 matches. -/
theorem C7_limit_cap_counterexample :
    effLimit (some "abc") = JsNum.nan ∧
    200 < (searchMatchesOf
      (searchSharded env201 emptyShardSt ([] : CacheSt Unit) (some "a") (some "abc")).1).length := by
  exact ⟨rfl, by decide⟩

-- === C8 ====================================================================

/-- The dataset of the C8 and C7 witnesses. -/
def dsW : List (String × Nat) := [("apple", 1), ("ant", 2), ("berry", 3)]

/-- An environment realizing the C8 premise for `dsW`: every bucket
file exists and parses to exactly the dataset entries routed to that
bucket. -/
def envW : Env Nat :=
  { fs := fun fn => FsFile.file fn,
    parse := fun raw =>
      some (dsW.filter (fun p => decide (shardFilenameForBucket (bucketOf p.1) = raw))) }

/-- Witness for C7 (amended): a numeric limit parameter of 2 yields a
response of at most 200 (here exactly 2) matches. -/
theorem C7_limit_cap_amended_witness :
    (["apple", "ant"] : List String).length ≤ 200 :=
  (C7_limit_cap_amended envW emptyShardSt [] dsW (some "a") (some "2") 2 rfl).2.2.1
    ["apple", "ant"] true []
    { shardCache := [("a", [("apple", 1), ("ant", 2)])], reads := ["a"] } rfl

/-- A `loadShard` call either finds the memo (no read) or logs exactly
its own bucket. -/
theorem loadShard_reads_cases {V : Type u} (env : Env V) (st : ShardSt V) (b : String) :
    (loadShard env st b).2.reads = st.reads ∨
    (loadShard env st b).2.reads = b :: st.reads := by
  unfold loadShard
  cases h : lookupBucket b st.shardCache with
  | some sh => exact Or.inl rfl
  | none => exact Or.inr rfl

/-- A `loadShard` call touches no other bucket: lookups and read
counts of every other bucket are unchanged. -/
theorem loadShard_frame {V : Type u} (env : Env V) (st : ShardSt V) (b b2 : String)
    (h : ¬ b2 = b) :
    lookupBucket b2 (loadShard env st b).2.shardCache = lookupBucket b2 st.shardCache ∧
    (loadShard env st b).2.reads.count b2 = st.reads.count b2 := by
  unfold loadShard
  cases hl : lookupBucket b st.shardCache with
  | some sh => exact ⟨rfl, rfl⟩
  | none =>
    refine ⟨lookupBucket_cons_ne b b2 _ _ (fun he => h he.symm), ?_⟩
    simp [List.count_cons, h]

/-- C9: a prefix-search request never reads or writes the recency
cache — in sharded mode and in streaming mode alike the cache comes
back unchanged — and in sharded mode it consults exactly one shard,
the one of the trimmed query's bucket: the resulting store is either
unchanged or exactly the store after that single load, at most that
one bucket is freshly read, and every other bucket's memo entry and
read count are untouched. -/
theorem C9_search_frame {V : Type u} (env : Env V) (st : ShardSt V) (cache : CacheSt V)
    (dataset : List (String × V)) (qP limP : Option String) :
    (searchSharded env st cache qP limP).2.1 = cache ∧
    (searchStream dataset cache qP limP).2.1 = cache ∧
    ((searchSharded env st cache qP limP).2.2 = st ∨
      (searchSharded env st cache qP limP).2.2 =
        (loadShard env st (bucketOf (jsTrim (qP.getD "")))).2) ∧
    ((searchSharded env st cache qP limP).2.2.reads = st.reads ∨
      (searchSharded env st cache qP limP).2.2.reads =
        bucketOf (jsTrim (qP.getD "")) :: st.reads) ∧
    (∀ b, ¬ b = bucketOf (jsTrim (qP.getD "")) →
      lookupBucket b (searchSharded env st cache qP limP).2.2.shardCache =
        lookupBucket b st.shardCache ∧
      (searchSharded env st cache qP limP).2.2.reads.count b = st.reads.count b) := by
  have hstream : (searchStream dataset cache qP limP).2.1 = cache := by
    rw [searchStream_eq]
    by_cases hq : jsTrim (qP.getD "") = ""
    · rw [if_pos hq]
    · rw [if_neg hq]
  rw [searchSharded_eq]
  by_cases hq : jsTrim (qP.getD "") = ""
  · rw [if_pos hq]
    exact ⟨rfl, hstream, Or.inl rfl, Or.inl rfl, fun b hb => ⟨rfl, rfl⟩⟩
  · rw [if_neg hq]
    refine ⟨rfl, hstream, Or.inr rfl, ?_, ?_⟩
    · exact loadShard_reads_cases env st _
    · intro b hb
      exact loadShard_frame env st _ b hb

/-- Witness for C9: a concrete search request leaves the cache
unchanged in both modes and every foreign bucket's memo and read count
untouched. -/
theorem C9_search_frame_witness :
    (searchSharded envW emptyShardSt ([] : CacheSt Nat) (some "ap") none).2.1 = [] ∧
    (searchStream dsW ([] : CacheSt Nat) (some "ap") none).2.1 = [] ∧
    (lookupBucket "z"
        (searchSharded envW emptyShardSt ([] : CacheSt Nat) (some "ap") none).2.2.shardCache =
      lookupBucket "z" (emptyShardSt (V := Nat)).shardCache ∧
    (searchSharded envW emptyShardSt ([] : CacheSt Nat) (some "ap") none).2.2.reads.count "z" =
      (emptyShardSt (V := Nat)).reads.count "z") :=
  ⟨(C9_search_frame envW emptyShardSt [] dsW (some "ap") none).1,
   (C9_search_frame envW emptyShardSt [] dsW (some "ap") none).2.1,
   (C9_search_frame envW emptyShardSt [] dsW (some "ap") none).2.2.2.2 "z" (by decide)⟩

-- === C10 ===================================================================

/-- C10: a prefix-search request whose query parameter is absent,
empty, or all whitespace is answered with the 400 bad-request response
before any shard is consulted or any member of the source is streamed:
the cache and shard store are returned untouched and the streamed
member count is zero. -/
theorem C10_blank_query_bad_request {V : Type u} (env : Env V) (st : ShardSt V)
    (dataset : List (String × V)) (cache : CacheSt V) (qP limP : Option String)
    (h : jsTrim (qP.getD "") = "") :
    searchSharded env st cache qP limP = (SearchResp.badRequest, cache, st) ∧
    searchStream dataset cache qP limP = (SearchResp.badRequest, cache, 0) := by
  rw [searchSharded_eq, searchStream_eq, if_pos h, if_pos h]
  exact ⟨rfl, rfl⟩

/-- Witness for C10 at a whitespace-only query. -/
theorem C10_blank_query_bad_request_witness :
    searchSharded envW emptyShardSt ([] : CacheSt Nat) (some "   ") none =
      (SearchResp.badRequest, [], emptyShardSt) ∧
    searchStream dsW ([] : CacheSt Nat) (some "   ") none = (SearchResp.badRequest, [], 0) :=
  C10_blank_query_bad_request envW emptyShardSt dsW [] (some "   ") none (by decide)
